import Mathlib

/-!
Verification of the matrixcube control-plane specification against a shallow
embedding of the repository's source.  Each section embeds one part of the
source (the in-memory storage engine `storage/mem/storage.go`, the evict-leader
scheduler, the joint-consensus operator step, the prophet client and the
system-time monitor) and proves or refutes the frozen claims about it.
-/

namespace MatrixCube

/-! ## Byte strings and their lexicographic order

Keys and values are byte slices compared by `bytes.Compare` (lexicographic on
unsigned bytes).  We model a byte slice as a `List Nat`. -/

abbrev Bytes := List Nat

/-- Strict lexicographic order on byte strings, as `bytes.Compare(a, b) < 0`. -/
def bytesLt : Bytes → Bytes → Bool
  | [], [] => false
  | [], _ :: _ => true
  | _ :: _, [] => false
  | a :: as, b :: bs => if a < b then true else if b < a then false else bytesLt as bs

/-- Non-strict lexicographic order, as `bytes.Compare(a, b) <= 0`. -/
def bytesLe (a b : Bytes) : Bool := !(bytesLt b a)

/-! ## The KV tree

Modelled from the spec: the storage engine's ordered container
(`util.KVTree`, a btree keyed by `bytes.Compare`) is not part of the sources
given; the spec describes the engine as "a pluggable KV store" with
`Set/Get/Scan/Snapshot` over ordered key ranges, so we model the tree as an
association list kept sorted in strictly ascending key order, with insert,
point lookup, range delete and ordered range scan. -/

abbrev KVTree := List (Bytes × Bytes)

/-- Modelled from the spec: ordered insert (replace on equal key). -/
def kvPut : KVTree → Bytes → Bytes → KVTree
  | [], k, v => [(k, v)]
  | (k0, v0) :: rest, k, v =>
    if bytesLt k k0 then (k, v) :: (k0, v0) :: rest
    else if bytesLt k0 k then (k0, v0) :: kvPut rest k v
    else (k, v) :: rest

/-- Modelled from the spec: point lookup; `none` plays Go's `nil` result. -/
def kvGet : KVTree → Bytes → Option Bytes
  | [], _ => none
  | (k0, v0) :: rest, k => if k0 = k then some v0 else kvGet rest k

/-- Membership of a key in the half-open range `[start, end)`. -/
def inRange (start e k : Bytes) : Bool := bytesLe start k && bytesLt k e

/-- Modelled from the spec: remove every pair whose key lies in `[start, end)`. -/
def kvRangeDelete (t : KVTree) (start e : Bytes) : KVTree :=
  t.filter (fun p => !(inRange start e p.1))

/-- Modelled from the spec: the pairs a range scan of `[start, end)` visits,
in tree (ascending key) order. -/
def kvScanPairs (t : KVTree) (start e : Bytes) : List (Bytes × Bytes) :=
  t.filter (fun p => inRange start e p.1)

/-- A tree is sorted when its keys are in strictly ascending lexicographic
order; every tree reachable through the storage API has this shape. -/
def kvSorted (t : KVTree) : Prop :=
  List.Pairwise (fun p q : Bytes × Bytes => bytesLt p.1 q.1 = true) t

/-! ## Value encoding (`encodeValue` / `decodeValue` of `storage/mem/storage.go`)

A stored value is the 8-byte big-endian signed expire-at timestamp followed by
the user value.  `decodeValue` returns the empty sentinel for a missing value
and for an expired timestamp. -/

/-- Big-endian bytes of a 64-bit two's-complement integer
(`buf.Int64ToBytesTo`). -/
def int64ToBytes (v : Int) : Bytes :=
  let n : Nat := (v % (18446744073709551616 : Int)).toNat
  [n / 72057594037927936 % 256, n / 281474976710656 % 256,
   n / 1099511627776 % 256, n / 4294967296 % 256,
   n / 16777216 % 256, n / 65536 % 256, n / 256 % 256, n % 256]

/-- Big-endian signed 64-bit read of the first 8 bytes (`buf.Byte2Int64`). -/
def bytesToInt64 (b : Bytes) : Int :=
  let n : Nat := (b.take 8).foldl (fun acc x => acc * 256 + x % 256) 0
  if n < 9223372036854775808 then (n : Int) else (n : Int) - 18446744073709551616

/-- Source `encodeValue`: 8-byte expire-at prefix followed by the value. -/
def encodeValue (value : Bytes) (expireAt : Int) : Bytes :=
  int64ToBytes expireAt ++ value

/-- Source `decodeValue`, with the sampled wall clock passed explicitly:
empty input stays empty, a non-zero expire-at strictly before `now` yields the
empty sentinel, otherwise the 8-byte prefix is stripped. -/
def decodeValue (now : Int) (value : Bytes) : Bytes :=
  if value = [] then []
  else if bytesToInt64 value ≠ 0 ∧ bytesToInt64 value < now then []
  else value.drop 8

/-! ## The in-memory storage (`storage/mem/storage.go`)

The statistics counters are Go `uint64`s updated with `atomic.AddUint64`,
which wraps modulo `2^64`. -/

/-- Wrapping 64-bit counter addition (`atomic.AddUint64`). -/
def addU64 (a b : Nat) : Nat := (a + b) % 18446744073709551616

/-- Source `stats.Stats`, restricted to the fields the storage touches. -/
structure Stats where
  writtenKeys : Nat
  writtenBytes : Nat
deriving DecidableEq, Repr

/-- Source `mem.Storage`: the KV tree plus the statistics counters. -/
structure MemStorage where
  kv : KVTree
  stats : Stats
deriving DecidableEq, Repr

/-- A freshly constructed storage (`NewStorage`): empty tree, zero counters. -/
def emptyStorage : MemStorage := { kv := [], stats := { writtenKeys := 0, writtenBytes := 0 } }

/-- Source `SetWithTTL`: count one written key and `len(key)+len(value)`
bytes, then store the encoded value (expire-at `now + ttl` when `ttl > 0`,
else the never-expiring `0`). -/
def memSetWithTTL (s : MemStorage) (now : Int) (key value : Bytes) (ttl : Int) : MemStorage :=
  let st : Stats :=
    { writtenKeys := addU64 s.stats.writtenKeys 1,
      writtenBytes := addU64 s.stats.writtenBytes (value.length + key.length) }
  let enc := if ttl > 0 then encodeValue value (now + ttl) else encodeValue value 0
  { kv := kvPut s.kv key enc, stats := st }

/-- Source `Set`: counts the write itself and then delegates to
`SetWithTTL(key, value, 0)`, which counts it again. -/
def memSet (s : MemStorage) (now : Int) (key value : Bytes) : MemStorage :=
  let st : Stats :=
    { writtenKeys := addU64 s.stats.writtenKeys 1,
      writtenBytes := addU64 s.stats.writtenBytes (value.length + key.length) }
  memSetWithTTL { s with stats := st } now key value 0

/-- Source `Get`: point lookup followed by `decodeValue` (a missing key reads
as Go's `nil` slice, which decodes to the empty sentinel). -/
def memGet (s : MemStorage) (now : Int) (key : Bytes) : Bytes :=
  decodeValue now ((kvGet s.kv key).getD [])

/-- Consecutive (key, value) pairs of `BatchSet`'s flat argument list. -/
def toPairs : List Bytes → List (Bytes × Bytes)
  | k :: v :: rest => (k, v) :: toPairs rest
  | _ => []

/-- Loop body of `BatchSet` for one (key, value) pair: run `Set` and count
the pair's bytes once more. -/
def batchSetStep (now : Int) (acc : MemStorage) (p : Bytes × Bytes) : MemStorage :=
  let acc1 := memSet acc now p.1 p.2
  { acc1 with stats := { acc1.stats with
      writtenBytes := addU64 acc1.stats.writtenBytes (p.1.length + p.2.length) } }

/-- Source `BatchSet`: reject an odd argument list, count `n` written keys up
front, then run the loop body on each pair. -/
def memBatchSet (s : MemStorage) (now : Int) (pairs : List Bytes) : Except String MemStorage :=
  if pairs.length % 2 ≠ 0 then Except.error "invalid args len"
  else
    let s1 : MemStorage :=
      { s with stats := { s.stats with
          writtenKeys := addU64 s.stats.writtenKeys (pairs.length / 2) } }
    Except.ok ((toPairs pairs).foldl (batchSetStep now) s1)

/-- Source `RangeDelete`: count exactly 2 written keys and
`len(start) + len(end)` written bytes, then delete the range from the tree. -/
def memRangeDelete (s : MemStorage) (start e : Bytes) : MemStorage :=
  { kv := kvRangeDelete s.kv start e,
    stats :=
      { writtenKeys := addU64 s.stats.writtenKeys 2,
        writtenBytes := addU64 s.stats.writtenBytes (start.length + e.length) } }

/-- Source `Scan`'s wrapper around the tree scan, returning the (key, decoded
value) pairs actually delivered to the handler: a pair whose decoded value is
empty is skipped, and a `false` handler result stops the scan. -/
def scanDeliver (now : Int) (handler : Bytes → Bytes → Bool) :
    List (Bytes × Bytes) → List (Bytes × Bytes)
  | [] => []
  | (k, v) :: rest =>
    let dv := decodeValue now v
    if dv = [] then scanDeliver now handler rest
    else if handler k dv then (k, dv) :: scanDeliver now handler rest
    else [(k, dv)]

/-- Source `Scan` over `[start, end)`: the pairs passed to the handler. -/
def memScanDelivered (s : MemStorage) (start e : Bytes) (now : Int)
    (handler : Bytes → Bytes → Bool) : List (Bytes × Bytes) :=
  scanDeliver now handler (kvScanPairs s.kv start e)

/-- Enumeration of a storage: the (key, decoded value) pairs a full scan would
deliver to a handler that always continues (pairs whose decoded value is the
empty sentinel are skipped). -/
def enumeration (s : MemStorage) (now : Int) : List (Bytes × Bytes) :=
  s.kv.filterMap (fun p =>
    let dv := decodeValue now p.2
    if dv = [] then none else some (p.1, dv))

/-- Enumeration of the range `[start, end)` of a storage. -/
def rangeEnumeration (s : MemStorage) (start e : Bytes) (now : Int) : List (Bytes × Bytes) :=
  (kvScanPairs s.kv start e).filterMap (fun p =>
    let dv := decodeValue now p.2
    if dv = [] then none else some (p.1, dv))

/-! ## Snapshot files (`CreateSnapshot` / `ApplySnapshot`)

A snapshot file is a flat byte string; `writeBytes` frames each field with a
4-byte big-endian length, `readBytes` reads one frame back ( empty input, the
`n == 0 && err == io.EOF` case, reads as an empty field). -/

/-- Big-endian 4-byte encoding of a length (`binary.BigEndian.PutUint32`). -/
def encodeU32 (n : Nat) : Bytes :=
  let m := n % 4294967296
  [m / 16777216 % 256, m / 65536 % 256, m / 256 % 256, m % 256]

/-- Big-endian read of the first 4 bytes (`binary.BigEndian.Uint32`). -/
def decodeU32 (b : Bytes) : Nat :=
  (b.take 4).foldl (fun acc x => acc * 256 + x % 256) 0

/-- Source `writeBytes`: append the 4-byte length then the data. -/
def writeBytes (file data : Bytes) : Bytes :=
  file ++ encodeU32 data.length ++ data

/-- Source `readBytes`: an empty file reads as the empty sentinel; otherwise
read the 4-byte length and that many data bytes, returning the field and the
remainder of the file. -/
def readBytes (file : Bytes) : Bytes × Bytes :=
  if file = [] then ([], [])
  else ((file.drop 4).take (decodeU32 file), (file.drop 4).drop (decodeU32 file))

/-- Source `CreateSnapshot`, as the content of the `db.data` file it writes:
the start key, the end key, then every raw (still encoded) pair the tree scan
of `[start, end)` visits. -/
def createSnapshot (s : MemStorage) (start e : Bytes) : Bytes :=
  let base := writeBytes (writeBytes [] start) e
  (kvScanPairs s.kv start e).foldl (fun f p => writeBytes (writeBytes f p.1) p.2) base

/-- One pair replayed by `ApplySnapshot`: count the pair in the statistics
and put it in the tree. -/
def applyPair (s : MemStorage) (k v : Bytes) : MemStorage :=
  { kv := kvPut s.kv k v,
    stats :=
      { writtenKeys := addU64 s.stats.writtenKeys 1,
        writtenBytes := addU64 s.stats.writtenBytes (k.length + v.length) } }

/-- Pair-reading loop of `ApplySnapshot`: read a key (an empty key ends the
loop), then a value (an empty value is a format error), and replay the pair.
The fuel only bounds the recursion; every well-formed file is consumed before
it runs out. -/
def applySnapshotLoop : Nat → MemStorage → Bytes → Except String MemStorage
  | 0, _, _ => Except.error "out of fuel"
  | fuel + 1, s, file =>
    if (readBytes file).1 = [] then Except.ok s
    else if (readBytes (readBytes file).2).1 = [] then
      Except.error "error format, missing value field"
    else
      applySnapshotLoop fuel
        (applyPair s (readBytes file).1 (readBytes (readBytes file).2).1)
        (readBytes (readBytes file).2).2

/-- Source `ApplySnapshot`: read the start and end fields (empty fields are
format errors), range-delete `[start, end)`, then replay every stored pair. -/
def applySnapshot (s : MemStorage) (file : Bytes) : Except String MemStorage :=
  if (readBytes file).1 = [] then Except.error "error format, missing start field"
  else if (readBytes (readBytes file).2).1 = [] then
    Except.error "error format, missing end field"
  else
    applySnapshotLoop ((readBytes (readBytes file).2).2.length + 1)
      { s with kv := kvRangeDelete s.kv (readBytes file).1 (readBytes (readBytes file).2).1 }
      (readBytes (readBytes file).2).2

/-- One length-prefixed field of a snapshot file. -/
def frame (d : Bytes) : Bytes := encodeU32 d.length ++ d

/-- The body of a snapshot file after the start and end fields: each scanned
pair as a key frame followed by a value frame. -/
def pairsFrames : List (Bytes × Bytes) → Bytes
  | [] => []
  | p :: rest => frame p.1 ++ (frame p.2 ++ pairsFrames rest)

/-- The storage `applySnapshotLoop` produces from a list of decoded pairs:
each pair replayed in order. -/
def applyPairs : MemStorage → List (Bytes × Bytes) → MemStorage
  | s, [] => s
  | s, p :: rest => applyPairs (applyPair s p.1 p.2) rest

/-! ## The evict-leader scheduler (`schedulers/evict_leader.go`)

`Schedule` runs `scheduleOnce` up to `EvictLeaderBatchSize` times, merging the
results with `uniqueAppend` and stopping once the merged list exceeds the
batch size.  `scheduleOnce` walks the configured container ids and, for each,
may build one transfer-leader operator; which resource the random picks settle
on is abstracted as an oracle `pick : iteration → containerID → Option EvictOp`
(so every reachable combination of random choices is one oracle). -/

/-- Source `EvictLeaderBatchSize`. -/
def EvictLeaderBatchSize : Nat := 3

/-- A produced operator, identified by the resource it targets. -/
structure EvictOp where
  resID : Nat
deriving DecidableEq, Repr

/-- Source `scheduleOnce` at one loop iteration: one optional operator per
configured container id, in configuration order. -/
def scheduleOnce (ids : List Nat) (pick : Nat → Option EvictOp) : List EvictOp :=
  ids.filterMap pick

/-- Inner loop of source `uniqueAppend`: append the operators of `src` whose
resource id was not seen before. -/
def uniqueAppendGo (seen : List Nat) (dst : List EvictOp) : List EvictOp → List EvictOp
  | [] => dst
  | o :: rest =>
    if o.resID ∈ seen then uniqueAppendGo seen dst rest
    else uniqueAppendGo (o.resID :: seen) (dst ++ [o]) rest

/-- Source `uniqueAppend`: seed the seen-set with `dst`'s resource ids. -/
def uniqueAppend (dst src : List EvictOp) : List EvictOp :=
  uniqueAppendGo (dst.map EvictOp.resID) dst src

/-- Loop of source `Schedule`: at most `EvictLeaderBatchSize` iterations
(the fuel), stopping early when `scheduleOnce` returns nothing or when the
merged batch exceeds `EvictLeaderBatchSize`. -/
def evictScheduleGo (ids : List Nat) (pick : Nat → Nat → Option EvictOp) :
    Nat → Nat → List EvictOp → List EvictOp
  | 0, _, ops => ops
  | fuel + 1, i, ops =>
    if scheduleOnce ids (pick i) = [] then ops
    else if EvictLeaderBatchSize < (uniqueAppend ops (scheduleOnce ids (pick i))).length then
      uniqueAppend ops (scheduleOnce ids (pick i))
    else evictScheduleGo ids pick fuel (i + 1) (uniqueAppend ops (scheduleOnce ids (pick i)))

/-- Source `Schedule` of the evict-leader scheduler. -/
def evictSchedule (ids : List Nat) (pick : Nat → Nat → Option EvictOp) : List EvictOp :=
  evictScheduleGo ids pick EvictLeaderBatchSize 0 []

/-! ## The joint-consensus step `ChangePeerV2Enter`

Modelled from the spec: the implementation of the operator step (its
`ConfVerChanged` and `IsFinish` predicates) is not among the sources given,
only its test table is.  Per the spec, a joint-consensus enter step promotes
each listed learner to `IncomingVoter` and demotes each listed voter to
`DemotingVoter` atomically; `ConfVerChanged` reports how many peer roles the
observed resource shows changed (all of them, or none, since the change is
atomic) and `IsFinish` reports whether the observed resource is fully in the
joint state. -/

/-- Source `metapb.PeerRole`. -/
inductive PeerRole
  | Voter
  | Learner
  | IncomingVoter
  | DemotingVoter
deriving DecidableEq, Repr

/-- Source `metapb.Peer`, restricted to the fields the step reads. -/
structure Peer where
  id : Nat
  containerID : Nat
  role : PeerRole
deriving DecidableEq, Repr

/-- One learner-promotion item of the step. -/
structure PromoteLearner where
  peerID : Nat
  toContainer : Nat
deriving DecidableEq, Repr

/-- One voter-demotion item of the step. -/
structure DemoteVoter where
  peerID : Nat
  toContainer : Nat
deriving DecidableEq, Repr

/-- The joint-consensus enter step. -/
structure ChangePeerV2Enter where
  promoteLearners : List PromoteLearner
  demoteVoters : List DemoteVoter
deriving Repr

/-- The peer a resource hosts on a given container, if any. -/
def getContainerPeer (peers : List Peer) (cid : Nat) : Option Peer :=
  peers.find? (fun p => p.containerID == cid)

/-- Modelled from the spec: the observed resource shows the step applied when
every promotion target is the expected peer in role `IncomingVoter` and every
demotion target is the expected peer in role `DemotingVoter`. -/
def cpeApplied (cpe : ChangePeerV2Enter) (peers : List Peer) : Bool :=
  cpe.promoteLearners.all (fun pl =>
    match getContainerPeer peers pl.toContainer with
    | some p => p.id == pl.peerID && p.role == PeerRole.IncomingVoter
    | none => false) &&
  cpe.demoteVoters.all (fun dv =>
    match getContainerPeer peers dv.toContainer with
    | some p => p.id == dv.peerID && p.role == PeerRole.DemotingVoter
    | none => false)

/-- Modelled from the spec: `ConfVerChanged` of `ChangePeerV2Enter` — the
number of peers whose role changed, which is all listed peers when the atomic
change is visible and `0` otherwise. -/
def cpeConfVerChanged (cpe : ChangePeerV2Enter) (peers : List Peer) : Nat :=
  if cpeApplied cpe peers then cpe.promoteLearners.length + cpe.demoteVoters.length else 0

/-- Modelled from the spec: `IsFinish` of `ChangePeerV2Enter` — the step is
finished when the observed resource is fully in the joint state. -/
def cpeIsFinish (cpe : ChangePeerV2Enter) (peers : List Peer) : Bool :=
  cpeApplied cpe peers

/-! ## The prophet client (`syncDo` and `Close`)

`syncDo` loops: create a request context, hand it to `do` (which fails only
with `ErrClosed` when the client is stopped), wait for completion, and on the
`ErrNotLeader` sentinel sleep 100 ms and retry; any other completion is
returned.  One loop iteration is driven by one `Attempt` of an oracle trace:
either `do` failed, or the context completed with a response or an error. -/

/-- The client-visible errors.  `other` carries a server error string turned
into a fresh error value by `errors.New`, which is never identical to the
`ErrNotLeader` sentinel (Go compares errors by identity here). -/
inductive RPCError
  | notLeader
  | timeout
  | closed
  | other (msg : String)
deriving DecidableEq, Repr

/-- One iteration of `syncDo`'s loop, as the environment resolves it. -/
inductive Attempt
  | doClosed
  | completed (r : Except RPCError Nat)
deriving Repr

/-- Source `syncDo` over a trace of attempt outcomes: `none` means the loop
is still retrying when the trace ends. -/
def syncDo : List Attempt → Option (Except RPCError Nat)
  | [] => none
  | Attempt.doClosed :: _ => some (Except.error RPCError.closed)
  | Attempt.completed (Except.error RPCError.notLeader) :: rest => syncDo rest
  | Attempt.completed (Except.error e) :: _ => some (Except.error e)
  | Attempt.completed (Except.ok r) :: _ => some (Except.ok r)

/-- The client state `Close` manipulates: the run state protected by the
mutex, the one-shot guard of `doClose`, and how many times each channel and
the leader connection have been closed. -/
structure ClientState where
  stopped : Bool
  stopperStopped : Bool
  onceDone : Bool
  heartbeatChClosed : Nat
  resetLeaderConnChClosed : Nat
  resetReadChClosed : Nat
  writeChClosed : Nat
  leaderConnClosed : Nat
deriving DecidableEq, Repr

/-- Source `doClose`: under `closeOnce`, close the four channels and the
leader connection; after the first run it does nothing. -/
def doClose (s : ClientState) : ClientState :=
  if s.onceDone then s
  else
    { s with
      onceDone := true,
      heartbeatChClosed := s.heartbeatChClosed + 1,
      resetLeaderConnChClosed := s.resetLeaderConnChClosed + 1,
      resetReadChClosed := s.resetReadChClosed + 1,
      writeChClosed := s.writeChClosed + 1,
      leaderConnClosed := s.leaderConnClosed + 1 }

/-- Source `Close`: under the mutex, return immediately when already stopped;
otherwise flip the state to stopped, stop the stopper and run `doClose`.
The returned `Option RPCError` is the Go error result (always `nil`). -/
def clientClose (s : ClientState) : ClientState × Option RPCError :=
  if s.stopped then (s, none)
  else (doClose { s with stopped := true, stopperStopped := true }, none)

/-- The state of a freshly created client (`NewClient`). -/
def freshClient : ClientState :=
  { stopped := false, stopperStopped := false, onceDone := false,
    heartbeatChClosed := 0, resetLeaderConnChClosed := 0,
    resetReadChClosed := 0, writeChClosed := 0, leaderConnClosed := 0 }

/-! ## The system-time monitor (`StartMonitor`)

Each loop iteration samples `last := now()`, then blocks on the select: a
tick fires and samples again (calling the handler when time jumped backward),
or the context is done and the loop returns.  A run is a trace of iterations,
each carrying the iteration's first sample and the select outcome. -/

/-- The select outcome of one monitor iteration. -/
inductive MonEvent
  | tick (sample : Int)
  | ctxDone
deriving DecidableEq, Repr

/-- One iteration of the monitor loop: the sample taken at its start and the
select outcome. -/
structure MonIter where
  last : Int
  ev : MonEvent
deriving DecidableEq, Repr

/-- Whether an iteration observes the clock jumping backward. -/
def monBackward (it : MonIter) : Bool :=
  match it.ev with
  | MonEvent.tick t => decide (t < it.last)
  | MonEvent.ctxDone => false

/-- Whether an iteration sees the context done. -/
def monDone (it : MonIter) : Bool :=
  match it.ev with
  | MonEvent.tick _ => false
  | MonEvent.ctxDone => true

/-- Source `StartMonitor` over a trace: how many times the handler was
invoked, and whether the loop returned (it returns only via `ctx.Done()`). -/
def monitorRun : List MonIter → Nat × Bool
  | [] => (0, false)
  | it :: rest =>
    match it.ev with
    | MonEvent.ctxDone => (0, true)
    | MonEvent.tick t =>
      let r := monitorRun rest
      (if t < it.last then r.1 + 1 else r.1, r.2)

/-! ## Basic lemmas about the lexicographic order and the tree -/

theorem bytesLt_irrefl (a : Bytes) : bytesLt a a = false := by
  induction a with
  | nil => rfl
  | cons x xs ih => simp [bytesLt, ih]

theorem bytesLt_ne {a b : Bytes} (h : bytesLt a b = true) : a ≠ b := by
  intro he
  subst he
  rw [bytesLt_irrefl] at h
  cases h

theorem bytesLt_asymm : ∀ (a b : Bytes), bytesLt a b = true → bytesLt b a = false
  | [], [], h => by cases h
  | [], _ :: _, _ => rfl
  | _ :: _, [], h => by cases h
  | a :: as, b :: bs, h => by
    simp only [bytesLt] at h ⊢
    rcases Nat.lt_trichotomy a b with hab | hab | hab
    · simp [hab, Nat.lt_asymm hab]
    · subst hab
      simp only [Nat.lt_irrefl, if_false] at h ⊢
      exact bytesLt_asymm as bs h
    · simp [hab, Nat.lt_asymm hab] at h

theorem kvGet_kvPut_self (t : KVTree) (k v : Bytes) :
    kvGet (kvPut t k v) k = some v := by
  induction t with
  | nil => simp [kvPut, kvGet]
  | cons p rest ih =>
    obtain ⟨k0, v0⟩ := p
    by_cases h1 : bytesLt k k0 = true
    · simp [kvPut, h1, kvGet]
    · by_cases h2 : bytesLt k0 k = true
      · simp [kvPut, h1, h2, kvGet, bytesLt_ne h2, ih]
      · simp [kvPut, h1, h2, kvGet]

/-! ## Lemmas about the 64-bit value encoding -/

theorem foldl_digits4 (m : Nat) (h : m < 4294967296) :
    ((((0 * 256 + m / 16777216 % 256) * 256 + m / 65536 % 256) * 256
        + m / 256 % 256) * 256 + m % 256) = m := by
  omega

theorem foldl_digits8 (n : Nat) (h : n < 18446744073709551616) :
    List.foldl (fun acc x => acc * 256 + x % 256) 0
      [n / 72057594037927936 % 256, n / 281474976710656 % 256,
       n / 1099511627776 % 256, n / 4294967296 % 256,
       n / 16777216 % 256, n / 65536 % 256, n / 256 % 256, n % 256] = n := by
  simp only [List.foldl_cons, List.foldl_nil]
  have hhi : n / 4294967296 < 4294967296 := by omega
  have hlo : n % 4294967296 < 4294967296 := by omega
  have e7 : n / 72057594037927936 % 256 % 256 = (n / 4294967296) / 16777216 % 256 := by omega
  have e6 : n / 281474976710656 % 256 % 256 = (n / 4294967296) / 65536 % 256 := by omega
  have e5 : n / 1099511627776 % 256 % 256 = (n / 4294967296) / 256 % 256 := by omega
  have e4 : n / 4294967296 % 256 % 256 = (n / 4294967296) % 256 := by omega
  have e3 : n / 16777216 % 256 % 256 = (n % 4294967296) / 16777216 % 256 := by omega
  have e2 : n / 65536 % 256 % 256 = (n % 4294967296) / 65536 % 256 := by omega
  have e1 : n / 256 % 256 % 256 = (n % 4294967296) / 256 % 256 := by omega
  have e0 : n % 256 % 256 = (n % 4294967296) % 256 := by omega
  rw [e7, e6, e5, e4, e3, e2, e1, e0]
  have expand : ∀ A d3 d2 d1 d0 : Nat,
      ((((A * 256 + d3) * 256 + d2) * 256 + d1) * 256 + d0) =
        A * 4294967296 + ((((0 * 256 + d3) * 256 + d2) * 256 + d1) * 256 + d0) := by
    intro A d3 d2 d1 d0
    ring
  rw [expand, foldl_digits4 (n / 4294967296) hhi, foldl_digits4 (n % 4294967296) hlo]
  omega

theorem take8_int64ToBytes (v : Int) (rest : Bytes) :
    (int64ToBytes v ++ rest).take 8 = int64ToBytes v := by
  have hl : (int64ToBytes v).length = 8 := by simp [int64ToBytes]
  rw [List.take_append_of_le_length (by omega), ← hl, List.take_length]

theorem drop8_int64ToBytes (v : Int) (rest : Bytes) :
    (int64ToBytes v ++ rest).drop 8 = rest := by
  have hl : (int64ToBytes v).length = 8 := by simp [int64ToBytes]
  rw [List.drop_append_of_le_length (by omega), ← hl, List.drop_length, List.nil_append]

theorem bytesToInt64_int64ToBytes (v : Int) (rest : Bytes)
    (h1 : -9223372036854775808 ≤ v) (h2 : v < 9223372036854775808) :
    bytesToInt64 (int64ToBytes v ++ rest) = v := by
  have hmod : (0 : Int) ≤ v % 18446744073709551616 ∧
      v % 18446744073709551616 < 18446744073709551616 := by
    constructor
    · exact Int.emod_nonneg v (by norm_num)
    · exact Int.emod_lt_of_pos v (by norm_num)
  set n : Nat := (v % 18446744073709551616).toNat with hn
  have hnlt : n < 18446744073709551616 := by omega
  have hfold : bytesToInt64 (int64ToBytes v ++ rest) =
      if n < 9223372036854775808 then (n : Int) else (n : Int) - 18446744073709551616 := by
    rw [bytesToInt64, take8_int64ToBytes]
    simp only [int64ToBytes, ← hn]
    rw [foldl_digits8 n hnlt]
  rw [hfold]
  have hv : (n : Int) = v % 18446744073709551616 := by omega
  rcases le_or_lt 0 v with hpos | hneg
  · have hvv : v % 18446744073709551616 = v := by omega
    rw [if_pos (by omega)]
    omega
  · have hvv : v % 18446744073709551616 = v + 18446744073709551616 := by omega
    rw [if_neg (by omega)]
    omega

theorem encodeValue_ne_nil (v : Bytes) (expireAt : Int) : encodeValue v expireAt ≠ [] := by
  simp [encodeValue, int64ToBytes]

theorem decodeValue_encodeValue_zero (now : Int) (v : Bytes) :
    decodeValue now (encodeValue v 0) = v := by
  have hb : bytesToInt64 (int64ToBytes 0 ++ v) = 0 :=
    bytesToInt64_int64ToBytes 0 v (by norm_num) (by norm_num)
  have hne : int64ToBytes 0 ++ v ≠ [] := by simp [int64ToBytes]
  simp [decodeValue, encodeValue, hne, hb, drop8_int64ToBytes]

theorem decodeValue_encodeValue_expired (now expireAt : Int) (v : Bytes)
    (h0 : expireAt ≠ 0) (hlt : expireAt < now)
    (hr1 : -9223372036854775808 ≤ expireAt) (hr2 : expireAt < 9223372036854775808) :
    decodeValue now (encodeValue v expireAt) = [] := by
  have hb : bytesToInt64 (encodeValue v expireAt) = expireAt :=
    bytesToInt64_int64ToBytes expireAt v hr1 hr2
  simp [decodeValue, encodeValue_ne_nil, hb, h0, hlt]

theorem decodeValue_encodeValue_empty (now expireAt : Int) :
    decodeValue now (encodeValue [] expireAt) = [] := by
  have hne : encodeValue [] expireAt ≠ [] := encodeValue_ne_nil [] expireAt
  have hdrop : (encodeValue [] expireAt).drop 8 = ([] : Bytes) :=
    drop8_int64ToBytes expireAt []
  unfold decodeValue
  rw [if_neg hne]
  by_cases h : bytesToInt64 (encodeValue [] expireAt) ≠ 0 ∧
      bytesToInt64 (encodeValue [] expireAt) < now
  · rw [if_pos h]
  · rw [if_neg h]
    exact hdrop

/-! ## C8 — Set/Get round-trip of the in-memory storage -/

/-- C8: for every key and every value (the empty value included), after
`Set(key, value)` a `Get(key)` returns exactly `value`, at any later sampled
clock: `Set` stores with TTL 0, the zero expire-at timestamp never expires,
and decoding strips exactly the 8-byte prefix that encoding added. -/
theorem set_get_roundtrip (s : MemStorage) (now now2 : Int) (k v : Bytes) :
    memGet (memSet s now k v) now2 k = v := by
  have hput : kvGet (kvPut s.kv k (encodeValue v 0)) k = some (encodeValue v 0) :=
    kvGet_kvPut_self s.kv k (encodeValue v 0)
  simp [memGet, memSet, memSetWithTTL, hput, decodeValue_encodeValue_zero]

/-! ## C9 — double counting of the statistics by Set and BatchSet -/

theorem batchSetStep_writtenKeys (now : Int) (acc : MemStorage) (p : Bytes × Bytes) :
    (batchSetStep now acc p).stats.writtenKeys
      = (acc.stats.writtenKeys + 2) % 18446744073709551616 := by
  simp only [batchSetStep, memSet, memSetWithTTL, addU64]
  omega

theorem batchFold_writtenKeys (now : Int) :
    ∀ (ps : List (Bytes × Bytes)) (acc : MemStorage),
      acc.stats.writtenKeys < 18446744073709551616 →
      (ps.foldl (batchSetStep now) acc).stats.writtenKeys
        = (acc.stats.writtenKeys + 2 * ps.length) % 18446744073709551616 := by
  intro ps
  induction ps with
  | nil =>
    intro acc hacc
    simp [List.foldl_nil]
    omega
  | cons p ps ih =>
    intro acc hacc
    rw [List.foldl_cons]
    have hstep := batchSetStep_writtenKeys now acc p
    have hlt : (batchSetStep now acc p).stats.writtenKeys < 18446744073709551616 := by
      rw [hstep]; omega
    rw [ih _ hlt, hstep]
    simp [List.length_cons]
    omega

theorem toPairs_length : ∀ l : List Bytes, (toPairs l).length = l.length / 2
  | [] => by simp [toPairs]
  | [_] => by simp [toPairs]
  | _ :: _ :: rest => by
    simp [toPairs, toPairs_length rest]
    omega

/-- C9: `Set` counts the write itself and then delegates to `SetWithTTL`,
which counts it again, so one `Set` adds exactly 2 to `WrittenKeys` and
`2*(len(key)+len(value))` to `WrittenBytes`; consequently `BatchSet` with `n`
pairs (which adds `n` up front and a per-pair byte count on top of each
inner `Set`) adds `3n` to `WrittenKeys`. -/
theorem set_stats_double_count (s : MemStorage) (now : Int) (k v : Bytes)
    (hk : s.stats.writtenKeys + 2 < 18446744073709551616)
    (hb : s.stats.writtenBytes + 2 * (k.length + v.length) < 18446744073709551616) :
    (memSet s now k v).stats.writtenKeys = s.stats.writtenKeys + 2 ∧
    (memSet s now k v).stats.writtenBytes
      = s.stats.writtenBytes + 2 * (k.length + v.length) ∧
    ∀ pairs : List Bytes, pairs.length % 2 = 0 →
      s.stats.writtenKeys + 3 * (pairs.length / 2) < 18446744073709551616 →
      ∃ s2, memBatchSet s now pairs = Except.ok s2 ∧
        s2.stats.writtenKeys = s.stats.writtenKeys + 3 * (pairs.length / 2) := by
  refine ⟨?_, ?_, ?_⟩
  · simp only [memSet, memSetWithTTL, addU64]
    omega
  · simp only [memSet, memSetWithTTL, addU64]
    omega
  · intro pairs hmod hov
    have hok : memBatchSet s now pairs
        = Except.ok ((toPairs pairs).foldl (batchSetStep now)
            { s with stats := { s.stats with
                writtenKeys := addU64 s.stats.writtenKeys (pairs.length / 2) } }) := by
      simp [memBatchSet, hmod]
    refine ⟨_, hok, ?_⟩
    have hlt : addU64 s.stats.writtenKeys (pairs.length / 2) < 18446744073709551616 := by
      simp only [addU64]
      omega
    have hfold := batchFold_writtenKeys now (toPairs pairs)
      { s with stats := { s.stats with
          writtenKeys := addU64 s.stats.writtenKeys (pairs.length / 2) } } hlt
    simp only [toPairs_length] at hfold
    simp only [addU64] at hfold ⊢
    rw [hfold]
    omega

/-- Witness for C9 at a concrete storage and pair list. -/
theorem set_stats_double_count_witness :
    (memSet emptyStorage 0 [1] [2, 3]).stats.writtenKeys
        = emptyStorage.stats.writtenKeys + 2 ∧
    (memSet emptyStorage 0 [1] [2, 3]).stats.writtenBytes
        = emptyStorage.stats.writtenBytes + 2 * (List.length [1] + List.length [2, 3]) ∧
    ∀ pairs : List Bytes, pairs.length % 2 = 0 →
      emptyStorage.stats.writtenKeys + 3 * (pairs.length / 2) < 18446744073709551616 →
      ∃ s2, memBatchSet emptyStorage 0 pairs = Except.ok s2 ∧
        s2.stats.writtenKeys = emptyStorage.stats.writtenKeys + 3 * (pairs.length / 2) :=
  set_stats_double_count emptyStorage 0 [1] [2, 3] (by norm_num [emptyStorage])
    (by norm_num [emptyStorage])

/-! ## C5 — RangeDelete statistics and range removal -/

theorem kvGet_kvRangeDelete (t : KVTree) (start e k : Bytes)
    (hk : inRange start e k = true) :
    kvGet (kvRangeDelete t start e) k = none := by
  induction t with
  | nil => rfl
  | cons p rest ih =>
    obtain ⟨k0, v0⟩ := p
    by_cases h : inRange start e k0 = true
    · simpa [kvRangeDelete, List.filter_cons, h] using ih
    · have hne : k0 ≠ k := by
        intro he
        rw [he, hk] at h
        exact h rfl
      simpa [kvRangeDelete, List.filter_cons, h, kvGet, hne] using ih

/-- C5: `RangeDelete(start, end)` adds exactly 2 to `WrittenKeys` and
`len(start)+len(end)` to `WrittenBytes`, whatever the tree holds, while
removing every key of `[start, end)` from the tree. -/
theorem rangeDelete_stats_fixed (s : MemStorage) (start e : Bytes)
    (hk : s.stats.writtenKeys + 2 < 18446744073709551616)
    (hb : s.stats.writtenBytes + (start.length + e.length) < 18446744073709551616) :
    (memRangeDelete s start e).stats.writtenKeys = s.stats.writtenKeys + 2 ∧
    (memRangeDelete s start e).stats.writtenBytes
      = s.stats.writtenBytes + (start.length + e.length) ∧
    ∀ k, inRange start e k = true → kvGet (memRangeDelete s start e).kv k = none := by
  refine ⟨?_, ?_, ?_⟩
  · simp [memRangeDelete, addU64]
    omega
  · simp [memRangeDelete, addU64]
    omega
  · intro k hkin
    exact kvGet_kvRangeDelete s.kv start e k hkin

/-! ## C1 — snapshot round-trip of the in-memory storage -/

theorem length_encodeU32 (n : Nat) : (encodeU32 n).length = 4 := by
  simp [encodeU32]

theorem decodeU32_encodeU32 (n : Nat) (rest : Bytes) (h : n < 4294967296) :
    decodeU32 (encodeU32 n ++ rest) = n := by
  have htake : (encodeU32 n ++ rest).take 4 = encodeU32 n := by
    have h4 : (4 : Nat) ≤ (encodeU32 n).length := by rw [length_encodeU32]
    rw [List.take_append_of_le_length h4, ← length_encodeU32 n, List.take_length]
  rw [decodeU32, htake]
  simp only [encodeU32, List.foldl_cons, List.foldl_nil]
  omega

theorem readBytes_frame (d rest : Bytes) (h : d.length < 4294967296) :
    readBytes (frame d ++ rest) = (d, rest) := by
  have hne : frame d ++ rest ≠ [] := by
    simp [frame, encodeU32]
  have hassoc : frame d ++ rest = encodeU32 d.length ++ (d ++ rest) := by
    simp [frame, List.append_assoc]
  have hdec : decodeU32 (frame d ++ rest) = d.length := by
    rw [hassoc]
    exact decodeU32_encodeU32 d.length (d ++ rest) h
  have hdrop4 : (frame d ++ rest).drop 4 = d ++ rest := by
    rw [hassoc]
    have h4 : (4 : Nat) ≤ (encodeU32 d.length).length := by rw [length_encodeU32]
    rw [List.drop_append_of_le_length h4, ← length_encodeU32 d.length, List.drop_length,
      List.nil_append]
  have ht : (d ++ rest).take d.length = d := by
    rw [List.take_append_of_le_length (le_refl _), List.take_length]
  have hd2 : (d ++ rest).drop d.length = rest := by
    rw [List.drop_append_of_le_length (le_refl _), List.drop_length, List.nil_append]
  rw [readBytes, if_neg hne, hdec, hdrop4, ht, hd2]

theorem snapshot_fold_frames :
    ∀ (pairs : List (Bytes × Bytes)) (base : Bytes),
      pairs.foldl (fun f p => writeBytes (writeBytes f p.1) p.2) base
        = base ++ pairsFrames pairs := by
  intro pairs
  induction pairs with
  | nil =>
    intro base
    simp [pairsFrames]
  | cons p ps ih =>
    intro base
    rw [List.foldl_cons, ih, pairsFrames]
    simp [writeBytes, frame, List.append_assoc]

theorem length_le_pairsFrames :
    ∀ pairs : List (Bytes × Bytes), pairs.length ≤ (pairsFrames pairs).length
  | [] => by simp [pairsFrames]
  | p :: ps => by
    have ih := length_le_pairsFrames ps
    simp [pairsFrames, frame, length_encodeU32]
    omega

theorem applySnapshotLoop_pairsFrames :
    ∀ (pairs : List (Bytes × Bytes)) (s : MemStorage) (fuel : Nat),
      pairs.length < fuel →
      (∀ p ∈ pairs, p.1 ≠ [] ∧ p.2 ≠ [] ∧ p.1.length < 4294967296 ∧ p.2.length < 4294967296) →
      applySnapshotLoop fuel s (pairsFrames pairs) = Except.ok (applyPairs s pairs) := by
  intro pairs
  induction pairs with
  | nil =>
    intro s fuel hf hcond
    obtain ⟨f, rfl⟩ : ∃ f, fuel = f + 1 := ⟨fuel - 1, by omega⟩
    rw [pairsFrames, applySnapshotLoop, applyPairs]
    simp [readBytes]
  | cons p ps ih =>
    intro s fuel hf hcond
    obtain ⟨k, v⟩ := p
    obtain ⟨f, rfl⟩ : ∃ f, fuel = f + 1 := ⟨fuel - 1, by omega⟩
    obtain ⟨hk, hv, hkl, hvl⟩ := hcond (k, v) (by simp)
    rw [pairsFrames, applySnapshotLoop]
    dsimp only
    rw [readBytes_frame k (frame v ++ pairsFrames ps) hkl]
    dsimp only
    rw [if_neg hk, readBytes_frame v (pairsFrames ps) hvl]
    dsimp only
    rw [if_neg hv, applyPairs]
    exact ih (applyPair s k v) f (by simp only [List.length_cons] at hf; omega)
      (fun q hq => hcond q (by simp [hq]))

theorem kvPut_gt (t : KVTree) (k v : Bytes) (h : ∀ p ∈ t, bytesLt p.1 k = true) :
    kvPut t k v = t ++ [(k, v)] := by
  induction t with
  | nil => rfl
  | cons p rest ih =>
    obtain ⟨k0, v0⟩ := p
    have h0 : bytesLt k0 k = true := h (k0, v0) (by simp)
    have h1 : bytesLt k k0 = false := bytesLt_asymm k0 k h0
    simp [kvPut, h0, h1, ih (fun q hq => h q (by simp [hq]))]

theorem applyPairs_kv :
    ∀ (pairs : List (Bytes × Bytes)) (s : MemStorage),
      List.Pairwise (fun p q : Bytes × Bytes => bytesLt p.1 q.1 = true) pairs →
      (∀ q ∈ s.kv, ∀ p ∈ pairs, bytesLt q.1 p.1 = true) →
      (applyPairs s pairs).kv = s.kv ++ pairs := by
  intro pairs
  induction pairs with
  | nil =>
    intro s _ _
    simp [applyPairs]
  | cons p ps ih =>
    intro s hpw hlt
    rw [applyPairs]
    have hput : (applyPair s p.1 p.2).kv = s.kv ++ [p] := by
      rw [applyPair]
      exact kvPut_gt s.kv p.1 p.2 (fun q hq => hlt q hq p (by simp))
    have hih := ih (applyPair s p.1 p.2) (List.Pairwise.sublist (List.sublist_cons_self p ps) hpw)
      (by
        intro q hq r hr
        rw [hput] at hq
        rcases List.mem_append.mp hq with hq1 | hq2
        · exact hlt q hq1 r (by simp [hr])
        · rcases List.mem_singleton.mp hq2 with rfl
          exact (List.pairwise_cons.mp hpw).1 r hr)
    rw [hih, hput, List.append_assoc, List.singleton_append]

theorem bytesLe_nil_right (start : Bytes) (h : start ≠ []) : bytesLe start [] = false := by
  cases start with
  | nil => exact absurd rfl h
  | cons a as => rfl

/-- Keys in `[start, end)` with a non-empty `start` are themselves non-empty. -/
theorem inRange_key_ne_nil (start e k : Bytes) (hs : start ≠ [])
    (hk : inRange start e k = true) : k ≠ [] := by
  intro hknil
  subst hknil
  rw [inRange, bytesLe_nil_right start hs] at hk
  simp at hk

/-- C1 (amended): the snapshot round-trip restores exactly the original range
enumeration provided the range endpoints are non-empty byte strings and every
stored raw value is non-empty (the snapshot file format cannot represent an
empty start key, end key, or value field; all lengths fit in the 4-byte
frame header). -/
theorem snapshot_roundtrip_amended (t : KVTree) (st : Stats) (start e : Bytes) (now : Int)
    (hsort : kvSorted t)
    (hin : ∀ p ∈ t, inRange start e p.1 = true)
    (hs : start ≠ []) (he : e ≠ [])
    (hvne : ∀ p ∈ t, p.2 ≠ [])
    (hslen : start.length < 4294967296) (helen : e.length < 4294967296)
    (hplen : ∀ p ∈ t, p.1.length < 4294967296 ∧ p.2.length < 4294967296) :
    ∃ s2, applySnapshot emptyStorage (createSnapshot { kv := t, stats := st } start e)
        = Except.ok s2 ∧
      s2.kv = t ∧
      enumeration s2 now = rangeEnumeration { kv := t, stats := st } start e now := by
  have hscan : kvScanPairs t start e = t :=
    List.filter_eq_self.mpr (fun p hp => hin p hp)
  have hfile : createSnapshot { kv := t, stats := st } start e
      = frame start ++ (frame e ++ pairsFrames t) := by
    rw [createSnapshot]
    show (kvScanPairs t start e).foldl (fun f p => writeBytes (writeBytes f p.1) p.2)
        (writeBytes (writeBytes [] start) e) = _
    rw [hscan, snapshot_fold_frames]
    simp [writeBytes, frame, List.append_assoc]
  have hcond : ∀ p ∈ t, p.1 ≠ [] ∧ p.2 ≠ [] ∧ p.1.length < 4294967296 ∧
      p.2.length < 4294967296 := by
    intro p hp
    exact ⟨inRange_key_ne_nil start e p.1 hs (hin p hp), hvne p hp,
      (hplen p hp).1, (hplen p hp).2⟩
  have hfuel : t.length < (pairsFrames t).length + 1 :=
    Nat.lt_succ_of_le (length_le_pairsFrames t)
  have hloop := applySnapshotLoop_pairsFrames t
    { emptyStorage with kv := kvRangeDelete emptyStorage.kv start e }
    ((pairsFrames t).length + 1) hfuel hcond
  have hkv : (applyPairs
      { emptyStorage with kv := kvRangeDelete emptyStorage.kv start e } t).kv = t := by
    rw [applyPairs_kv t _ hsort (by intro q hq; simp [emptyStorage, kvRangeDelete] at hq)]
    simp [emptyStorage, kvRangeDelete]
  refine ⟨_, ?_, hkv, ?_⟩
  · rw [hfile, applySnapshot, readBytes_frame start (frame e ++ pairsFrames t) hslen]
    simp only
    rw [if_neg hs, readBytes_frame e (pairsFrames t) helen]
    simp only
    rw [if_neg he]
    exact hloop
  · rw [enumeration, hkv, rangeEnumeration]
    show t.filterMap _ = (kvScanPairs t start e).filterMap _
    rw [hscan]

/-- Concrete storage for the C1 counterexample: a single pair stored at the
empty key, which lies inside the range `[[], [1])`. -/
def cexStorage : MemStorage :=
  { kv := [([], encodeValue [5] 0)], stats := { writtenKeys := 0, writtenBytes := 0 } }

/-- C1 as stated is false: with the empty byte string as the range start (a
legal range bound containing the stored keys), `CreateSnapshot` writes an
empty start field, `ApplySnapshot` rejects the file with "missing start
field", and the target storage keeps its empty enumeration while the source
range enumeration is non-empty. -/
theorem snapshot_roundtrip_cex :
    kvSorted cexStorage.kv ∧
    (∀ p ∈ cexStorage.kv, inRange [] [1] p.1 = true) ∧
    applySnapshot emptyStorage (createSnapshot cexStorage [] [1])
      = Except.error "error format, missing start field" ∧
    rangeEnumeration cexStorage [] [1] 0 = [([], [5])] ∧
    ¬ ∃ s2, applySnapshot emptyStorage (createSnapshot cexStorage [] [1])
        = Except.ok s2 ∧
      enumeration s2 0 = rangeEnumeration cexStorage [] [1] 0 := by
  refine ⟨?_, ?_, ?_, ?_, ?_⟩
  · simp [kvSorted, cexStorage]
  · decide
  · rfl
  · rfl
  · rintro ⟨s2, h, -⟩
    rw [show applySnapshot emptyStorage (createSnapshot cexStorage [] [1])
        = Except.error "error format, missing start field" from rfl] at h
    cases h

/-- Witness for C1 (amended) at the spec's own S6 scenario: two pairs and the
range `[[1], [3])`. -/
theorem snapshot_roundtrip_amended_witness :
    ∃ s2, applySnapshot emptyStorage
        (createSnapshot
          { kv := [([1], encodeValue [7] 0), ([2], encodeValue [8] 0)],
            stats := { writtenKeys := 0, writtenBytes := 0 } } [1] [3])
        = Except.ok s2 ∧
      s2.kv = [([1], encodeValue [7] 0), ([2], encodeValue [8] 0)] ∧
      enumeration s2 0 = rangeEnumeration
        { kv := [([1], encodeValue [7] 0), ([2], encodeValue [8] 0)],
          stats := { writtenKeys := 0, writtenBytes := 0 } } [1] [3] 0 :=
  snapshot_roundtrip_amended [([1], encodeValue [7] 0), ([2], encodeValue [8] 0)]
    { writtenKeys := 0, writtenBytes := 0 } [1] [3] 0
    (by simp [kvSorted, bytesLt])
    (by decide) (by decide) (by decide) (by decide) (by decide) (by decide) (by decide)

/-! ## C4 — Scan delivers exactly the rows whose decoded value is non-empty -/

theorem scanDeliver_snd_ne_nil (now : Int) (handler : Bytes → Bytes → Bool) :
    ∀ (l : List (Bytes × Bytes)) (k dv : Bytes),
      (k, dv) ∈ scanDeliver now handler l → dv ≠ [] := by
  intro l
  induction l with
  | nil =>
    intro k dv h
    simp [scanDeliver] at h
  | cons p rest ih =>
    intro k dv h
    obtain ⟨k0, v0⟩ := p
    by_cases hdv : decodeValue now v0 = []
    · rw [scanDeliver, if_pos hdv] at h
      exact ih k dv h
    · rw [scanDeliver, if_neg hdv] at h
      by_cases hh : handler k0 (decodeValue now v0) = true
      · rw [if_pos hh] at h
        rcases List.mem_cons.mp h with heq | hmem
        · cases heq
          exact hdv
        · exact ih k dv hmem
      · rw [if_neg hh] at h
        rcases List.mem_singleton.mp h with heq
        cases heq
        exact hdv

theorem scanDeliver_true_handler (now : Int) :
    ∀ l : List (Bytes × Bytes),
      scanDeliver now (fun _ _ => true) l
        = l.filterMap (fun p =>
            if decodeValue now p.2 = [] then none else some (p.1, decodeValue now p.2)) := by
  intro l
  induction l with
  | nil => rfl
  | cons p rest ih =>
    obtain ⟨k0, v0⟩ := p
    by_cases hdv : decodeValue now v0 = []
    · rw [scanDeliver, if_pos hdv, List.filterMap_cons]
      simp only [hdv, if_pos rfl]
      exact ih
    · rw [scanDeliver, if_neg hdv, if_pos rfl, List.filterMap_cons]
      simp only [if_neg hdv]
      rw [ih]

/-- C4: the in-memory `Scan` passes a stored row to the handler exactly when
its decoded value is non-empty — it is dropped when decoding yields the empty
sentinel, which happens both for an expired TTL and for an empty explicit
value, so a row with an empty explicit value is never delivered. -/
theorem scan_drops_empty_decoded (s : MemStorage) (start e : Bytes) (now : Int) :
    (∀ (handler : Bytes → Bytes → Bool) (k dv : Bytes),
        (k, dv) ∈ memScanDelivered s start e now handler → dv ≠ []) ∧
    (memScanDelivered s start e now (fun _ _ => true)
      = (kvScanPairs s.kv start e).filterMap (fun p =>
          if decodeValue now p.2 = [] then none else some (p.1, decodeValue now p.2))) ∧
    (∀ (v : Bytes) (expireAt : Int), expireAt ≠ 0 → expireAt < now →
        -9223372036854775808 ≤ expireAt → expireAt < 9223372036854775808 →
        decodeValue now (encodeValue v expireAt) = []) ∧
    (∀ expireAt : Int, decodeValue now (encodeValue [] expireAt) = []) := by
  refine ⟨?_, ?_, ?_, ?_⟩
  · intro handler k dv h
    exact scanDeliver_snd_ne_nil now handler (kvScanPairs s.kv start e) k dv h
  · exact scanDeliver_true_handler now (kvScanPairs s.kv start e)
  · intro v expireAt h0 hlt hr1 hr2
    exact decodeValue_encodeValue_expired now expireAt v h0 hlt hr1 hr2
  · intro expireAt
    exact decodeValue_encodeValue_empty now expireAt

/-! ## C3 — evict-leader Schedule batch size and distinctness -/

theorem uniqueAppendGo_length (src : List EvictOp) :
    ∀ (seen : List Nat) (dst : List EvictOp),
      (uniqueAppendGo seen dst src).length ≤ dst.length + src.length := by
  induction src with
  | nil =>
    intro seen dst
    simp [uniqueAppendGo]
  | cons o rest ih =>
    intro seen dst
    rw [uniqueAppendGo]
    by_cases h : o.resID ∈ seen
    · rw [if_pos h]
      have := ih seen dst
      simp only [List.length_cons]
      omega
    · rw [if_neg h]
      have := ih (o.resID :: seen) (dst ++ [o])
      simp only [List.length_append, List.length_cons, List.length_nil] at this ⊢
      omega

theorem uniqueAppendGo_nodup (src : List EvictOp) :
    ∀ (seen : List Nat) (dst : List EvictOp),
      (dst.map EvictOp.resID).Nodup →
      (∀ r ∈ dst.map EvictOp.resID, r ∈ seen) →
      ((uniqueAppendGo seen dst src).map EvictOp.resID).Nodup := by
  induction src with
  | nil =>
    intro seen dst h1 h2
    simpa [uniqueAppendGo] using h1
  | cons o rest ih =>
    intro seen dst h1 h2
    rw [uniqueAppendGo]
    by_cases h : o.resID ∈ seen
    · rw [if_pos h]
      exact ih seen dst h1 h2
    · rw [if_neg h]
      refine ih (o.resID :: seen) (dst ++ [o]) ?_ ?_
      · rw [List.map_append]
        rw [List.nodup_append]
        refine ⟨h1, by simp, ?_⟩
        intro r hr hr2
        simp at hr2
        subst hr2
        exact h (h2 _ hr)
      · intro r hr
        rw [List.map_append] at hr
        rcases List.mem_append.mp hr with h3 | h3
        · exact List.mem_cons_of_mem _ (h2 r h3)
        · simp at h3
          subst h3
          exact List.mem_cons_self _ _

theorem evictScheduleGo_nodup (ids : List Nat) (pick : Nat → Nat → Option EvictOp) :
    ∀ (fuel i : Nat) (ops : List EvictOp),
      (ops.map EvictOp.resID).Nodup →
      ((evictScheduleGo ids pick fuel i ops).map EvictOp.resID).Nodup := by
  intro fuel
  induction fuel with
  | zero =>
    intro i ops h
    simpa [evictScheduleGo] using h
  | succ f ih =>
    intro i ops h
    rw [evictScheduleGo]
    by_cases h1 : scheduleOnce ids (pick i) = []
    · rw [if_pos h1]
      exact h
    · rw [if_neg h1]
      have hm : ((uniqueAppend ops (scheduleOnce ids (pick i))).map EvictOp.resID).Nodup :=
        uniqueAppendGo_nodup _ _ _ h (fun r hr => hr)
      by_cases h2 : EvictLeaderBatchSize
          < (uniqueAppend ops (scheduleOnce ids (pick i))).length
      · rw [if_pos h2]
        exact hm
      · rw [if_neg h2]
        exact ih (i + 1) _ hm

theorem evictScheduleGo_length (ids : List Nat) (pick : Nat → Nat → Option EvictOp) :
    ∀ (fuel i : Nat) (ops : List EvictOp),
      ops.length ≤ EvictLeaderBatchSize →
      (evictScheduleGo ids pick fuel i ops).length ≤ EvictLeaderBatchSize + ids.length := by
  intro fuel
  induction fuel with
  | zero =>
    intro i ops h
    simp only [evictScheduleGo]
    omega
  | succ f ih =>
    intro i ops h
    rw [evictScheduleGo]
    have honce : (scheduleOnce ids (pick i)).length ≤ ids.length :=
      List.length_filterMap_le _ _
    have hmerged : (uniqueAppend ops (scheduleOnce ids (pick i))).length
        ≤ ops.length + (scheduleOnce ids (pick i)).length :=
      uniqueAppendGo_length _ _ _
    by_cases h1 : scheduleOnce ids (pick i) = []
    · rw [if_pos h1]
      omega
    · rw [if_neg h1]
      by_cases h2 : EvictLeaderBatchSize
          < (uniqueAppend ops (scheduleOnce ids (pick i))).length
      · rw [if_pos h2]
        omega
      · rw [if_neg h2]
        exact ih (i + 1) _ (by omega)

/-- C3 (amended): one invocation of the evict-leader `Schedule` returns at
most `EvictLeaderBatchSize + K` operators, where `K` is the number of
configured container ids (the loop only stops after the merged batch already
exceeds the batch size, and one `scheduleOnce` pass can add up to `K`
operators), and all returned operators target pairwise distinct resources. -/
theorem evict_schedule_batch (ids : List Nat) (pick : Nat → Nat → Option EvictOp) :
    (evictSchedule ids pick).length ≤ EvictLeaderBatchSize + ids.length ∧
    ((evictSchedule ids pick).map EvictOp.resID).Nodup := by
  constructor
  · exact evictScheduleGo_length ids pick EvictLeaderBatchSize 0 [] (by simp [EvictLeaderBatchSize])
  · exact evictScheduleGo_nodup ids pick EvictLeaderBatchSize 0 [] (by simp)

/-- C3 as stated is false: with four configured container ids whose random
picks all land on distinct resources, a single `Schedule` invocation returns
4 operators, exceeding the documented batch size of 3. -/
theorem evict_schedule_cex :
    (evictSchedule [1, 2, 3, 4] (fun _ cid => some { resID := cid })).length = 4 ∧
    ¬ (evictSchedule [1, 2, 3, 4] (fun _ cid => some { resID := cid })).length
        ≤ EvictLeaderBatchSize := by
  decide

/-! ## C2 — the ChangePeerV2Enter test scenario -/

/-- The step of scenario S5: promote learners 3 and 4, demote voters 1 and 2. -/
def enterStep : ChangePeerV2Enter :=
  { promoteLearners := [{ peerID := 3, toContainer := 3 }, { peerID := 4, toContainer := 4 }],
    demoteVoters := [{ peerID := 1, toContainer := 1 }, { peerID := 2, toContainer := 2 }] }

/-- The peer list fully in the joint state. -/
def jointPeers : List Peer :=
  [{ id := 1, containerID := 1, role := PeerRole.DemotingVoter },
   { id := 2, containerID := 2, role := PeerRole.DemotingVoter },
   { id := 3, containerID := 3, role := PeerRole.IncomingVoter },
   { id := 4, containerID := 4, role := PeerRole.IncomingVoter }]

/-- The peer list before the step. -/
def prePeers : List Peer :=
  [{ id := 1, containerID := 1, role := PeerRole.Voter },
   { id := 2, containerID := 2, role := PeerRole.Voter },
   { id := 3, containerID := 3, role := PeerRole.Learner },
   { id := 4, containerID := 4, role := PeerRole.Learner }]

/-- C2: on the joint state `{1:DV, 2:DV, 3:IV, 4:IV}` the step reports
`ConfVerChanged = 4` and `IsFinish = true`; on the pre-step state
`{1:V, 2:V, 3:L, 4:L}` it reports `ConfVerChanged = 0` and
`IsFinish = false`. -/
theorem changePeerV2Enter_spec :
    cpeConfVerChanged enterStep jointPeers = 4 ∧
    cpeIsFinish enterStep jointPeers = true ∧
    cpeConfVerChanged enterStep prePeers = 0 ∧
    cpeIsFinish enterStep prePeers = false := by
  decide

/-! ## C6 — syncDo retries NotLeader and never surfaces it -/

/-- C6: whenever `syncDo` returns, the result is a successful response or an
error different from the `NotLeader` sentinel; a completion with `NotLeader`
makes the loop retry with the remaining trace instead of returning. -/
theorem syncDo_never_not_leader (attempts : List Attempt) (r : Except RPCError Nat)
    (h : syncDo attempts = some r) :
    r ≠ Except.error RPCError.notLeader ∧
    ∀ rest : List Attempt,
      syncDo (Attempt.completed (Except.error RPCError.notLeader) :: rest) = syncDo rest := by
  refine ⟨?_, fun rest => rfl⟩
  induction attempts with
  | nil => simp [syncDo] at h
  | cons a rest ih =>
    cases a with
    | doClosed =>
      simp [syncDo] at h
      simp [← h]
    | completed res =>
      cases res with
      | ok x =>
        simp [syncDo] at h
        simp [← h]
      | error e =>
        cases e with
        | notLeader => exact ih (by simpa [syncDo] using h)
        | timeout =>
          simp [syncDo] at h
          simp [← h]
        | closed =>
          simp [syncDo] at h
          simp [← h]
        | other msg =>
          simp [syncDo] at h
          simp [← h]

/-- Witness for C6: a trace that completes with `NotLeader` once and then
succeeds; `syncDo` returns the success. -/
theorem syncDo_never_not_leader_witness :
    (Except.ok 7 : Except RPCError Nat) ≠ Except.error RPCError.notLeader ∧
    ∀ rest : List Attempt,
      syncDo (Attempt.completed (Except.error RPCError.notLeader) :: rest) = syncDo rest :=
  syncDo_never_not_leader
    [Attempt.completed (Except.error RPCError.notLeader), Attempt.completed (Except.ok 7)]
    (Except.ok 7) rfl

/-! ## C10 — Close of the prophet client is idempotent -/

/-- C10: the first `Close` of a fresh client flips the state to stopped,
closes each of the four channels and the leader connection exactly once, and
returns nil; any `Close` of an already-stopped client changes nothing and
also returns nil, so a second `Close` is a no-op. -/
theorem client_close_idempotent :
    clientClose freshClient
      = ({ stopped := true, stopperStopped := true, onceDone := true,
           heartbeatChClosed := 1, resetLeaderConnChClosed := 1,
           resetReadChClosed := 1, writeChClosed := 1, leaderConnClosed := 1 }, none) ∧
    (∀ s : ClientState, s.stopped = true → clientClose s = (s, none)) ∧
    clientClose (clientClose freshClient).1 = ((clientClose freshClient).1, none) := by
  refine ⟨rfl, ?_, rfl⟩
  intro s hs
  rw [clientClose, if_pos hs]

/-! ## C7 — the system-time monitor -/

/-- C7: over any run of the monitor loop, the handler is invoked exactly once
per iteration that observes the sampled time strictly before the iteration's
starting sample (counted up to the iteration in which the context is seen
done) — in particular it is never invoked when no iteration observes a
backward jump — and the loop returns exactly when the context is done. -/
theorem monitor_spec (trace : List MonIter) :
    (monitorRun trace).1
      = (trace.takeWhile (fun it => !(monDone it))).countP monBackward ∧
    ((monitorRun trace).2 = true ↔ ∃ it ∈ trace, monDone it = true) ∧
    ((∀ it ∈ trace, monBackward it = false) → (monitorRun trace).1 = 0) := by
  refine ⟨?_, ?_, ?_⟩
  · induction trace with
    | nil => simp [monitorRun]
    | cons it rest ih =>
      cases hev : it.ev with
      | ctxDone =>
        rw [monitorRun]
        rw [hev]
        have hdone : monDone it = true := by simp [monDone, hev]
        simp [List.takeWhile_cons, hdone]
      | tick t =>
        rw [monitorRun]
        rw [hev]
        have hdone : monDone it = false := by simp [monDone, hev]
        have hback : monBackward it = decide (t < it.last) := by simp [monBackward, hev]
        by_cases hlt : t < it.last
        · simp [List.takeWhile_cons, hdone, List.countP_cons, hback, hlt, ih]
        · simp [List.takeWhile_cons, hdone, List.countP_cons, hback, hlt, ih]
  · induction trace with
    | nil => simp [monitorRun]
    | cons it rest ih =>
      cases hev : it.ev with
      | ctxDone =>
        rw [monitorRun]
        rw [hev]
        have hdone : monDone it = true := by simp [monDone, hev]
        simp [hdone]
      | tick t =>
        rw [monitorRun]
        rw [hev]
        have hdone : monDone it = false := by simp [monDone, hev]
        simp [hdone, ih]
  · intro hall
    induction trace with
    | nil => simp [monitorRun]
    | cons it rest ih =>
      cases hev : it.ev with
      | ctxDone =>
        rw [monitorRun]
        rw [hev]
      | tick t =>
        rw [monitorRun]
        rw [hev]
        have hback := hall it (by simp)
        rw [monBackward, hev] at hback
        simp at hback
        simp [hback, Int.not_lt.mpr hback]
        exact ih (fun q hq => hall q (by simp [hq]))

/-- Witness for C5 at a concrete storage and range. -/
theorem rangeDelete_stats_fixed_witness :
    (memRangeDelete (memSet emptyStorage 0 [1] [7]) [1] [2]).stats.writtenKeys
        = (memSet emptyStorage 0 [1] [7]).stats.writtenKeys + 2 ∧
    (memRangeDelete (memSet emptyStorage 0 [1] [7]) [1] [2]).stats.writtenBytes
        = (memSet emptyStorage 0 [1] [7]).stats.writtenBytes
            + (List.length [1] + List.length [2]) ∧
    ∀ k, inRange [1] [2] k = true →
      kvGet (memRangeDelete (memSet emptyStorage 0 [1] [7]) [1] [2]).kv k = none :=
  rangeDelete_stats_fixed (memSet emptyStorage 0 [1] [7]) [1] [2]
    (by norm_num [memSet, memSetWithTTL, emptyStorage, addU64])
    (by norm_num [memSet, memSetWithTTL, emptyStorage, addU64])

end MatrixCube
